import Mathlib

/-! Verification of the `funnel` timing-control primitive (src/funnel.ts).

The funnel closes over four mutable variables: `burstTimeoutId`,
`delayTimeoutId`, `preparedData` and `burstStartTimestamp`.  We embed the
closure state as a record, a scheduled timeout as the absolute time
(`Int`, milliseconds) at which it may fire (timers may fire late but never
early), and each operation as a state transformer that also emits the list
of executor invocations `(time, payload)` it performs synchronously.  The
caller-supplied `reduceArgs` is a parameter `f : Option D → A → D` (its
accumulator starts as `undefined`, i.e. `none`); `execute` is represented
by the emitted output list. -/

namespace Funnel

/-- The `invokedAt` policy field of src/funnel.ts: at which edges of an
activity window the executor runs; the source default is `"end"`. -/
inductive InvokedAt where
  | atStart
  | atEnd
  | atBoth
deriving DecidableEq

/-- The `TimingPolicy` record of src/funnel.ts (all duration fields
optional; numbers are embedded as `Int`). -/
structure TimingPolicy where
  invokedAt : InvokedAt
  burstCoolDownMs : Option Int
  maxBurstDurationMs : Option Int
  delayMs : Option Int
deriving DecidableEq

/-- The closure state of a funnel: the two timeout handles (modelled as the
absolute deadline of the pending timeout), the reduced pending payload, and
the burst start timestamp. -/
structure FunnelState (D : Type) where
  burstTimeoutId : Option Int
  delayTimeoutId : Option Int
  preparedData : Option D
  burstStartTimestamp : Option Int
deriving DecidableEq

/-- The initial state: no timers, no payload, no burst timestamp. -/
def FunnelState.initial {D : Type} : FunnelState D :=
  ⟨none, none, none, none⟩

/-- `isIdle` getter (src/funnel.ts line 246-248): true iff neither timeout
is set. -/
def isIdle {D : Type} (s : FunnelState D) : Bool :=
  s.burstTimeoutId.isNone && s.delayTimeoutId.isNone

/-- `invoke` (src/funnel.ts lines 133-148): if there is no prepared data do
nothing; otherwise clear the prepared data, call `execute` on it (emitted
as an output event at time `now`), and if `delayMs` is defined schedule
`handleDelayEnd` after `delayMs`. -/
def invoke {D : Type} (delayMs : Option Int) (now : Int) (s : FunnelState D) :
    FunnelState D × List (Int × D) :=
  match s.preparedData with
  | none => (s, [])
  | some param =>
      let s1 := { s with preparedData := none }
      match delayMs with
      | none => (s1, [(now, param)])
      | some d => ({ s1 with delayTimeoutId := some (now + d) }, [(now, param)])

/-- `handleDelayEnd` (src/funnel.ts lines 150-164): clear the delay
timeout; if the burst timeout is still set, defer; otherwise invoke. -/
def handleDelayEnd {D : Type} (delayMs : Option Int) (now : Int)
    (s : FunnelState D) : FunnelState D × List (Int × D) :=
  let s1 := { s with delayTimeoutId := none }
  if s1.burstTimeoutId.isSome then (s1, []) else invoke delayMs now s1

/-- `handleBurstEnd` (src/funnel.ts lines 166-181): clear the burst timeout
and the burst start timestamp; if the delay timeout is still set, defer;
otherwise invoke. -/
def handleBurstEnd {D : Type} (delayMs : Option Int) (now : Int)
    (s : FunnelState D) : FunnelState D × List (Int × D) :=
  let s1 := { s with burstTimeoutId := none, burstStartTimestamp := none }
  if s1.delayTimeoutId.isSome then (s1, []) else invoke delayMs now s1

/-- The tail of `call` (src/funnel.ts lines 199-227): if `burstCoolDownMs`
is undefined, stop; if the burst timer is inactive but the funnel was not
idle, stop; otherwise (re)arm the burst timeout, recording the burst start
timestamp only if not already set (`??=`), with delay `burstCoolDownMs`,
capped by the remaining `maxBurstDurationMs` when that is defined.
`wasIdle` is the idleness captured at the start of `call`. -/
def armBurst {D : Type} (p : TimingPolicy) (now : Int) (wasIdle : Bool)
    (s : FunnelState D) : FunnelState D :=
  match p.burstCoolDownMs with
  | none => s
  | some burstCoolDown =>
      if s.burstTimeoutId = none ∧ wasIdle = false then s
      else
        let burstStart := s.burstStartTimestamp.getD now
        let burstRemainingMs :=
          match p.maxBurstDurationMs with
          | none => burstCoolDown
          | some maxBurst => min burstCoolDown (maxBurst - (now - burstStart))
        { s with burstTimeoutId := some (now + burstRemainingMs),
                 burstStartTimestamp := some burstStart }

/-- `call` (src/funnel.ts lines 184-228): capture idleness, fold the args
into the prepared data unless `invokedAt === "start"` and the funnel was
active, invoke synchronously when `invokedAt !== "end"` and the funnel was
idle, then run the burst-arming tail. -/
def call {A D : Type} (p : TimingPolicy) (f : Option D → A → D) (now : Int)
    (args : A) (s : FunnelState D) : FunnelState D × List (Int × D) :=
  let wasIdle := isIdle s
  let s1 :=
    if p.invokedAt ≠ InvokedAt.atStart ∨ wasIdle = true then
      { s with preparedData := some (f s.preparedData args) }
    else s
  let r :=
    if p.invokedAt ≠ InvokedAt.atEnd ∧ wasIdle = true then
      invoke p.delayMs now s1
    else (s1, [])
  (armBurst p now wasIdle r.1, r.2)

/-- `cancel` (src/funnel.ts lines 230-239): clear both timeouts, the burst
start timestamp, and the prepared data, without invoking. -/
def cancel {D : Type} (s : FunnelState D) : FunnelState D :=
  { s with burstTimeoutId := none, burstStartTimestamp := none,
           delayTimeoutId := none, preparedData := none }

/-- `flush` (src/funnel.ts lines 241-244): run `handleBurstEnd` then
`handleDelayEnd` directly. -/
def flush {D : Type} (delayMs : Option Int) (now : Int) (s : FunnelState D) :
    FunnelState D × List (Int × D) :=
  let r1 := handleBurstEnd delayMs now s
  let r2 := handleDelayEnd delayMs now r1.1
  (r2.1, r1.2 ++ r2.2)

/-- External events driving a funnel: a `call` with its arguments, the two
public resets, and the firing of each scheduled timeout. -/
inductive Event (A : Type) where
  | call (args : A)
  | cancel
  | flush
  | fireBurst
  | fireDelay
deriving DecidableEq

/-- True for `call` events. -/
def Event.isCall {A : Type} : Event A → Bool
  | .call _ => true
  | _ => false

/-- True for the events that are not the public resets `flush`/`cancel`. -/
def isPlainEvent {A : Type} : Event A → Bool
  | .flush => false
  | .cancel => false
  | _ => true

/-- One step of the funnel on a timestamped event. -/
def step {A D : Type} (p : TimingPolicy) (f : Option D → A → D)
    (s : FunnelState D) (t : Int) (e : Event A) :
    FunnelState D × List (Int × D) :=
  match e with
  | .call args => call p f t args s
  | .cancel => (cancel s, [])
  | .flush => flush p.delayMs t s
  | .fireBurst => handleBurstEnd p.delayMs t s
  | .fireDelay => handleDelayEnd p.delayMs t s

/-- Run a trace of timestamped events, collecting all executor
invocations in order. -/
def run {A D : Type} (p : TimingPolicy) (f : Option D → A → D) :
    FunnelState D → List (Int × Event A) → FunnelState D × List (Int × D)
  | s, [] => (s, [])
  | s, (t, e) :: rest =>
      ((run p f (step p f s t e).1 rest).1,
       (step p f s t e).2 ++ (run p f (step p f s t e).1 rest).2)

/-- A timer-firing event is valid only when the corresponding timeout is
scheduled and its deadline has passed (timeouts fire late, never early);
all other events are always valid. -/
def validEventB {A D : Type} (s : FunnelState D) (t : Int) : Event A → Bool
  | .fireBurst =>
      match s.burstTimeoutId with
      | none => false
      | some deadline => decide (deadline ≤ t)
  | .fireDelay =>
      match s.delayTimeoutId with
      | none => false
      | some deadline => decide (deadline ≤ t)
  | _ => true

/-- A trace is valid from state `s` at time bound `t0` when its timestamps
are nondecreasing (and `≥ t0`) and every timer firing in it is valid. -/
def ValidTrace {A D : Type} (p : TimingPolicy) (f : Option D → A → D) :
    FunnelState D → Int → List (Int × Event A) → Bool
  | _, _, [] => true
  | s, t0, (t, e) :: rest =>
      decide (t0 ≤ t) && validEventB s t e &&
        ValidTrace p f (step p f s t e).1 t rest

/-- Left fold of a list of call arguments through the reducer, starting
from the `undefined` accumulator (the payload after those calls, when every
one of them folded). -/
def foldCalls {A D : Type} (f : Option D → A → D) :
    Option D → List A → Option D
  | acc, [] => acc
  | acc, a :: rest => foldCalls f (some (f acc a)) rest

/-- The arguments of all `call` events of a trace, in order. -/
def callArgsOf {A : Type} : List (Int × Event A) → List A
  | [] => []
  | (_, Event.call a) :: rest => a :: callArgsOf rest
  | _ :: rest => callArgsOf rest

/-- The arguments of the `call` events made since the last burst-timeout
firing (the last execution, under a pure trailing policy), in order. -/
def callArgsSince {A : Type} (acc : List A) : List (Int × Event A) → List A
  | [] => acc
  | (_, Event.call a) :: rest => callArgsSince (acc ++ [a]) rest
  | (_, Event.fireBurst) :: rest => callArgsSince [] rest
  | _ :: rest => callArgsSince acc rest

/-- The timestamp of the last `call` event since the last burst-timeout
firing, if any. -/
def traceLastCall {A : Type} (acc : Option Int) :
    List (Int × Event A) → Option Int
  | [] => acc
  | (t, Event.call _) :: rest => traceLastCall (some t) rest
  | (_, Event.fireBurst) :: rest => traceLastCall none rest
  | _ :: rest => traceLastCall acc rest

/-- A pure trailing (debounce) policy: `invokedAt: "end"` (the default),
`burstCoolDownMs: w`, no `maxBurstDurationMs`. -/
def trailingPolicy (w : Int) : TimingPolicy :=
  ⟨InvokedAt.atEnd, some w, none, none⟩

/-- Invariant tying a funnel state under `trailingPolicy w` to the calls
made since the last execution (`pend`) and the time of the last of them
(`lastC`): the delay timeout is never used, the payload is the fold of
`pend`, and the burst timeout is scheduled at `lastC + w` iff `pend` is
nonempty. -/
def C1Inv {A D : Type} (w : Int) (f : Option D → A → D) (s : FunnelState D)
    (pend : List A) (lastC : Option Int) : Prop :=
  s.delayTimeoutId = none ∧
  s.preparedData = foldCalls f none pend ∧
  (match pend with
   | [] => s.burstTimeoutId = none
   | _ :: _ => ∃ L, lastC = some L ∧ s.burstTimeoutId = some (L + w))

/-- Invariant for the minimum-spacing property: if an execution already
happened at `lastE`, then either the delay timeout is scheduled exactly
`d` after it, or that deadline has already passed (`≤ tcur`); before any
execution the delay timeout is unset. -/
def C6Inv {D : Type} (d : Int) (s : FunnelState D) (lastE : Option Int)
    (tcur : Int) : Prop :=
  match lastE with
  | none => s.delayTimeoutId = none
  | some te =>
      match s.delayTimeoutId with
      | some deadline => deadline = te + d
      | none => te + d ≤ tcur

/-- The executions `out` keep gaps of at least `d` between consecutive
entries, and of at least `d` after a previous execution at `lastE`. -/
def gapOk {D : Type} (d : Int) (lastE : Option Int)
    (out : List (Int × D)) : Prop :=
  List.Chain' (fun x y => x.1 + d ≤ y.1) out ∧
  (match lastE, out.head? with
   | some te, some o => te + d ≤ o.1
   | _, _ => True)

/-- Concrete reducer used in witness instances: collect the `Int`
arguments in call order into a list. -/
def collectArgs (acc : Option (List Int)) (a : Int) : List Int :=
  acc.getD [] ++ [a]

/-- Concrete debounce-plus-throttle policy used in concrete instances:
trailing edge, 10ms cooldown, 100ms delay. -/
def throttledPolicy : TimingPolicy :=
  ⟨InvokedAt.atEnd, some 10, none, some 100⟩

/-- Concrete trace reaching a state whose delay timeout is active while a
payload is pending: a call, the burst firing (executing and arming the
delay), then another call during the delay moratorium. -/
def delayPendingTrace : List (Int × Event Int) :=
  [(0, Event.call 1), (10, Event.fireBurst), (20, Event.call 2)]

/-- Concrete trace in which a `flush` forces the second execution only 2ms
after the first, despite `delayMs = 100`. -/
def flushGapTrace : List (Int × Event Int) :=
  [(0, Event.call 1), (10, Event.fireBurst), (11, Event.call 2),
   (12, Event.flush)]

/-- Concrete leading-edge policy used in witness instances. -/
def startPolicy : TimingPolicy :=
  ⟨InvokedAt.atStart, some 32, none, some 100⟩

/-- Concrete policy with a maximum burst duration, used in witness
instances. -/
def maxBurstPolicy : TimingPolicy :=
  ⟨InvokedAt.atEnd, some 10, some 30, none⟩

/-- Concrete state with an active burst timeout, used in witness
instances. -/
def burstActiveState : FunnelState (List Int) :=
  ⟨some 15, none, some [1], some 5⟩

/-- Concrete state with only the delay timeout active, used in witness
instances. -/
def delayOnlyState : FunnelState (List Int) :=
  ⟨none, some 50, some [9], none⟩

/-- Concrete policy with no `burstCoolDownMs` (and a defined `delayMs`),
under the default `invokedAt: "end"`, used in witness instances. -/
def noBurstPolicy : TimingPolicy :=
  ⟨InvokedAt.atEnd, none, none, some 100⟩

/-- Concrete trace consisting solely of `call` events, used in witness
instances. -/
def callsOnlyTrace : List (Int × Event Int) :=
  [(0, Event.call 1), (5, Event.call 2)]

/-- Concrete prefix trace for the pure-trailing witness: two calls, 3ms
apart, under a 10ms cooldown. -/
def debounceWitnessPre : List (Int × Event Int) :=
  [(0, Event.call 1), (3, Event.call 2)]

/-- Concrete trace for the minimum-spacing witness: a full
burst/execute/delay cycle followed by a second one. -/
def throttleWitnessTrace : List (Int × Event Int) :=
  [(0, Event.call 1), (10, Event.fireBurst), (150, Event.fireDelay),
   (160, Event.call 2), (200, Event.fireBurst)]

/-- C2: on every `call`, the arguments are folded into the pending payload
via `reduceArgs` exactly when `invokedAt` is not `"start"` or the funnel
was idle at the start of the call; when `invokedAt` is exactly `"start"`
and the funnel was active, the pending payload is left unchanged by that
call.  (In the idle start-edge case the folded value is consumed
synchronously by the executor; in all other folding cases it is retained
as the pending payload.) -/
theorem call_fold_rule {A D : Type} (p : TimingPolicy) (f : Option D → A → D)
    (now : Int) (args : A) (s : FunnelState D) :
    (call p f now args s).1.preparedData =
      (if p.invokedAt = InvokedAt.atStart ∧ isIdle s = false then
        s.preparedData
       else if p.invokedAt ≠ InvokedAt.atEnd ∧ isIdle s = true then none
       else some (f s.preparedData args)) ∧
    (call p f now args s).2 =
      (if p.invokedAt ≠ InvokedAt.atEnd ∧ isIdle s = true then
        [(now, f s.preparedData args)]
       else []) := by
  rcases p with ⟨ia, bc, mb, dm⟩
  rcases s with ⟨b, dl, pd, bst⟩
  cases ia <;> cases b <;> cases dl <;> cases bc <;> cases dm <;>
    simp [call, invoke, armBurst, isIdle]

/-- C5: when `invokedAt = "end"`, a `call` never invokes the executor
within its own synchronous frame (all executions then come from timer
callbacks or from `flush`). -/
theorem call_end_only_not_synchronous {A D : Type} (p : TimingPolicy)
    (f : Option D → A → D) (now : Int) (args : A) (s : FunnelState D)
    (h : p.invokedAt = InvokedAt.atEnd) :
    (call p f now args s).2 = [] := by
  simp [call, h]

/-- C5 witness at a concrete input. -/
theorem call_end_only_not_synchronous_witness :
    (call throttledPolicy collectArgs 0 3 FunnelState.initial).2 = [] :=
  call_end_only_not_synchronous throttledPolicy collectArgs 0 3
    FunnelState.initial rfl

/-- C3: a `call` with `invokedAt ≠ "end"` that finds the funnel idle
invokes the executor synchronously within that call on the folded payload,
leaves the pending payload cleared, and arms the delay timeout exactly
when `delayMs` is defined. -/
theorem call_start_edge {A D : Type} (p : TimingPolicy)
    (f : Option D → A → D) (now : Int) (args : A) (s : FunnelState D)
    (h1 : p.invokedAt ≠ InvokedAt.atEnd) (h2 : isIdle s = true) :
    (call p f now args s).2 = [(now, f s.preparedData args)] ∧
    (call p f now args s).1.preparedData = none ∧
    (call p f now args s).1.delayTimeoutId =
      p.delayMs.map (fun d => now + d) := by
  rcases p with ⟨ia, bc, mb, dm⟩
  rcases s with ⟨b, dl, pd, bst⟩
  simp [isIdle] at h2
  rcases h2 with ⟨hb, hdl⟩
  subst hb hdl
  cases ia <;> simp at h1 <;> cases bc <;> cases dm <;>
    simp [call, invoke, armBurst, isIdle]

/-- C3 witness at a concrete input. -/
theorem call_start_edge_witness :
    (call startPolicy collectArgs 5 7 FunnelState.initial).2 =
      [(5, collectArgs FunnelState.initial.preparedData 7)] ∧
    (call startPolicy collectArgs 5 7 FunnelState.initial).1.preparedData =
      none ∧
    (call startPolicy collectArgs 5 7 FunnelState.initial).1.delayTimeoutId =
      startPolicy.delayMs.map (fun d => 5 + d) :=
  call_start_edge startPolicy collectArgs 5 7 FunnelState.initial
    (by decide) (by decide)

/-- C7: a `call` that reaches the burst-arming step (`burstCoolDownMs`
defined, and not in the delay-only situation) replaces any existing burst
timeout, records the burst start timestamp only if not already set, and
schedules the new timeout after `burstCoolDownMs`, capped when
`maxBurstDurationMs` is set by `maxBurstDurationMs` minus the elapsed time
since the burst start, measured at the moment of arming. -/
theorem call_rearms_burst {A D : Type} (p : TimingPolicy)
    (f : Option D → A → D) (now : Int) (args : A) (s : FunnelState D)
    (w : Int) (hw : p.burstCoolDownMs = some w)
    (harm : s.burstTimeoutId ≠ none ∨ isIdle s = true) :
    (call p f now args s).1.burstStartTimestamp =
      some (s.burstStartTimestamp.getD now) ∧
    (call p f now args s).1.burstTimeoutId =
      some (now +
        (match p.maxBurstDurationMs with
         | none => w
         | some maxBurst =>
             min w (maxBurst - (now - s.burstStartTimestamp.getD now)))) := by
  rcases p with ⟨ia, bc, mb, dm⟩
  subst hw
  rcases s with ⟨b, dl, pd, bst⟩
  rcases harm with h | h
  · rcases b with _ | bt
    · exact absurd rfl h
    · cases ia <;> cases dl <;> cases mb <;>
        simp [call, invoke, armBurst, isIdle]
  · simp [isIdle] at h
    rcases h with ⟨hb, hdl⟩
    subst hb hdl
    cases ia <;> cases dm <;> cases mb <;>
      simp [call, invoke, armBurst, isIdle]

/-- C7 witness at a concrete input. -/
theorem call_rearms_burst_witness :
    (call maxBurstPolicy collectArgs 20 7 burstActiveState).1.burstStartTimestamp =
      some (burstActiveState.burstStartTimestamp.getD 20) ∧
    (call maxBurstPolicy collectArgs 20 7 burstActiveState).1.burstTimeoutId =
      some (20 +
        (match maxBurstPolicy.maxBurstDurationMs with
         | none => (10 : Int)
         | some maxBurst =>
             min 10 (maxBurst -
               (20 - burstActiveState.burstStartTimestamp.getD 20)))) :=
  call_rearms_burst maxBurstPolicy collectArgs 20 7 burstActiveState 10 rfl
    (by decide)

/-- C8: a `call` made while the burst timeout is inactive but the funnel
is not idle (delay-only moratorium) on a funnel with `burstCoolDownMs`
defined arms no burst timeout, records no burst start timestamp, leaves
the delay timeout unchanged, and performs no execution. -/
theorem call_during_delay_only {A D : Type} (p : TimingPolicy)
    (f : Option D → A → D) (now : Int) (args : A) (s : FunnelState D)
    (w : Int) (hw : p.burstCoolDownMs = some w)
    (hb : s.burstTimeoutId = none) (hni : isIdle s = false) :
    (call p f now args s).1.burstTimeoutId = none ∧
    (call p f now args s).1.burstStartTimestamp = s.burstStartTimestamp ∧
    (call p f now args s).1.delayTimeoutId = s.delayTimeoutId ∧
    (call p f now args s).2 = [] := by
  rcases p with ⟨ia, bc, mb, dm⟩
  subst hw
  rcases s with ⟨b, dl, pd, bst⟩
  simp only [FunnelState.burstTimeoutId] at hb
  subst hb
  rcases dl with _ | d0
  · simp [isIdle] at hni
  · cases ia <;> simp [call, invoke, armBurst, isIdle]

/-- C8 witness at a concrete input. -/
theorem call_during_delay_only_witness :
    (call throttledPolicy collectArgs 20 7 delayOnlyState).1.burstTimeoutId =
      none ∧
    (call throttledPolicy collectArgs 20 7 delayOnlyState).1.burstStartTimestamp =
      delayOnlyState.burstStartTimestamp ∧
    (call throttledPolicy collectArgs 20 7 delayOnlyState).1.delayTimeoutId =
      delayOnlyState.delayTimeoutId ∧
    (call throttledPolicy collectArgs 20 7 delayOnlyState).2 = [] :=
  call_during_delay_only throttledPolicy collectArgs 20 7 delayOnlyState 10
    rfl rfl (by decide)

/-- C9: `cancel` clears both timeouts, the burst start timestamp and the
pending payload without invoking the executor, leaving the funnel in the
initial (idle) state; it is idempotent. -/
theorem cancel_resets_idempotent {A D : Type} (p : TimingPolicy)
    (f : Option D → A → D) (t : Int) (s : FunnelState D) :
    cancel s = FunnelState.initial ∧
    cancel (cancel s) = cancel s ∧
    isIdle (cancel s) = true ∧
    (step p f s t (Event.cancel : Event A)).2 = [] := by
  rcases s with ⟨b, dl, pd, bst⟩
  simp [cancel, FunnelState.initial, isIdle, step]

/-- C4 (amended): `flush` executes the pending payload, if any, exactly
once; afterwards the burst timeout and payload are cleared, and the delay
timeout is cleared except when `delayMs` is defined and a payload was
pending while the delay timeout was active, in which case a fresh delay
timeout is armed `delayMs` after the flush. -/
theorem flush_executes_pending_once {D : Type} (delayMs : Option Int)
    (now : Int) (s : FunnelState D) :
    ((flush delayMs now s).2 =
      match s.preparedData with
      | none => []
      | some v => [(now, v)]) ∧
    (flush delayMs now s).1.burstTimeoutId = none ∧
    (flush delayMs now s).1.preparedData = none ∧
    ((flush delayMs now s).1.delayTimeoutId =
      match delayMs, s.delayTimeoutId, s.preparedData with
      | some d, some _, some _ => some (now + d)
      | _, _, _ => none) := by
  rcases s with ⟨b, dl, pd, bst⟩
  cases b <;> cases dl <;> cases pd <;> cases delayMs <;>
    simp [flush, handleBurstEnd, handleDelayEnd, invoke]

/-- C4 counterexample: from the reachable state where the delay timeout is
active with a payload pending, `flush` executes the payload but leaves the
funnel non-idle (a fresh delay timeout is armed). -/
theorem flush_not_idle_counterexample :
    ValidTrace throttledPolicy collectArgs FunnelState.initial 0
      delayPendingTrace = true ∧
    (flush throttledPolicy.delayMs 30
      (run throttledPolicy collectArgs FunnelState.initial
        delayPendingTrace).1).2 = [(30, [2])] ∧
    isIdle (flush throttledPolicy.delayMs 30
      (run throttledPolicy collectArgs FunnelState.initial
        delayPendingTrace).1).1 = false := by
  decide

/-- With `invokedAt = "end"` and no `burstCoolDownMs`, a trace of `call`
events keeps both timeouts (and the burst timestamp) unset, performs no
execution, and folds every call into the payload. -/
lemma run_only_calls_aux {A D : Type} (p : TimingPolicy)
    (f : Option D → A → D)
    (h1 : p.invokedAt = InvokedAt.atEnd) (h2 : p.burstCoolDownMs = none) :
    ∀ (tr : List (Int × Event A)) (q : Option D),
      tr.all (fun x => x.2.isCall) = true →
      run p f ⟨none, none, q, none⟩ tr =
        (⟨none, none, foldCalls f q (callArgsOf tr), none⟩, []) := by
  intro tr
  induction tr with
  | nil => intro q _; simp [run, callArgsOf, foldCalls]
  | cons x rest ih =>
      intro q hall
      rcases x with ⟨t, e⟩
      rw [List.all_cons, Bool.and_eq_true] at hall
      rcases hall with ⟨hx, hall⟩
      rcases e with a | _ | _ | _ | _ <;> simp [Event.isCall] at hx
      have hstep :
          step p f (⟨none, none, q, none⟩ : FunnelState D) t (Event.call a) =
            (⟨none, none, some (f q a), none⟩, []) := by
        simp [step, call, invoke, armBurst, isIdle, h1, h2]
      simp [run, hstep, callArgsOf, foldCalls, ih (some (f q a)) hall]

/-- C10: with `burstCoolDownMs` undefined and `invokedAt = "end"`, every
sequence of `call` invocations never invokes the executor and never arms
any timer — even when `delayMs` is defined — so the funnel stays idle and
the pending payload accumulates the fold of all the calls. -/
theorem no_burst_never_fires {A D : Type} (p : TimingPolicy)
    (f : Option D → A → D)
    (h1 : p.invokedAt = InvokedAt.atEnd) (h2 : p.burstCoolDownMs = none)
    (tr : List (Int × Event A))
    (hcalls : tr.all (fun x => x.2.isCall) = true) :
    (run p f FunnelState.initial tr).2 = [] ∧
    (run p f FunnelState.initial tr).1 =
      ⟨none, none, foldCalls f none (callArgsOf tr), none⟩ := by
  have h := run_only_calls_aux p f h1 h2 tr none hcalls
  rw [show (FunnelState.initial : FunnelState D) = ⟨none, none, none, none⟩
        from rfl, h]
  exact ⟨rfl, rfl⟩

/-- C10 witness at a concrete input. -/
theorem no_burst_never_fires_witness :
    (run noBurstPolicy collectArgs FunnelState.initial callsOnlyTrace).2 =
      [] ∧
    (run noBurstPolicy collectArgs FunnelState.initial callsOnlyTrace).1 =
      ⟨none, none, foldCalls collectArgs none (callArgsOf callsOnlyTrace),
       none⟩ :=
  no_burst_never_fires noBurstPolicy collectArgs rfl rfl callsOnlyTrace
    (by decide)

/-- Folding one more argument extends a left fold of call arguments. -/
lemma foldCalls_append {A D : Type} (f : Option D → A → D) :
    ∀ (l : List A) (acc : Option D) (a : A),
      foldCalls f acc (l ++ [a]) = some (f (foldCalls f acc l) a) := by
  intro l
  induction l with
  | nil => intro acc a; rfl
  | cons b bs ih => intro acc a; simp [foldCalls, ih]

/-- A fold started from a defined accumulator stays defined. -/
lemma foldCalls_some {A D : Type} (f : Option D → A → D) :
    ∀ (l : List A) (x : D), ∃ v, foldCalls f (some x) l = some v := by
  intro l
  induction l with
  | nil => intro x; exact ⟨x, rfl⟩
  | cons b bs ih => intro x; simpa [foldCalls] using ih (f (some x) b)

/-- The fold of a nonempty list of call arguments is defined. -/
lemma foldCalls_cons_some {A D : Type} (f : Option D → A → D) (a : A)
    (l : List A) : ∃ v, foldCalls f none (a :: l) = some v := by
  simpa [foldCalls] using foldCalls_some f l (f none a)

/-- A valid trace ending in one extra event yields validity of the prefix
and validity of the final event from the state the prefix reaches. -/
lemma validTrace_snoc {A D : Type} (p : TimingPolicy)
    (f : Option D → A → D) :
    ∀ (xs : List (Int × Event A)) (s : FunnelState D) (t0 t : Int)
      (e : Event A),
      ValidTrace p f s t0 (xs ++ [(t, e)]) = true →
      ValidTrace p f s t0 xs = true ∧
      validEventB (run p f s xs).1 t e = true := by
  intro xs
  induction xs with
  | nil =>
      intro s t0 t e h
      rw [List.nil_append] at h
      simp only [ValidTrace, Bool.and_eq_true] at h
      exact ⟨rfl, h.1.2⟩
  | cons x rest ih =>
      intro s t0 t e h
      rcases x with ⟨t1, e1⟩
      simp only [List.cons_append, ValidTrace, Bool.and_eq_true] at h
      rcases h with ⟨⟨h1, h2⟩, h3⟩
      obtain ⟨hrest, hlast⟩ := ih _ t1 t e h3
      constructor
      · simp only [ValidTrace, Bool.and_eq_true]
        exact ⟨⟨h1, h2⟩, hrest⟩
      · simpa [run] using hlast

/-- `call` under a pure trailing policy, when the delay timeout is unset:
fold the arguments, do not execute, and (re)arm the burst timeout for
`now + w`. -/
lemma call_trailing_eq {A D : Type} (w : Int) (f : Option D → A → D)
    (t : Int) (a : A) (s : FunnelState D)
    (hdl : s.delayTimeoutId = none) :
    call (trailingPolicy w) f t a s =
      (⟨some (t + w), none, some (f s.preparedData a),
        some (s.burstStartTimestamp.getD t)⟩, []) := by
  rcases s with ⟨b, dl, pd, bst⟩
  simp only [FunnelState.delayTimeoutId] at hdl
  subst hdl
  cases b <;> simp [call, invoke, armBurst, isIdle, trailingPolicy]

/-- `handleBurstEnd` with no `delayMs`, no delay timeout and a pending
payload resets the state and executes the payload. -/
lemma handleBurstEnd_trailing_eq {D : Type} (t : Int) (s : FunnelState D)
    (hdl : s.delayTimeoutId = none) (v : D)
    (hpd : s.preparedData = some v) :
    handleBurstEnd none t s =
      ((⟨none, none, none, none⟩ : FunnelState D), [(t, v)]) := by
  rcases s with ⟨b, dl, pd, bst⟩
  simp only [FunnelState.delayTimeoutId] at hdl
  simp only [FunnelState.preparedData] at hpd
  subst hdl hpd
  simp [handleBurstEnd, invoke]

/-- The invariant `C1Inv` is preserved along any valid flush/cancel-free
trace under a pure trailing policy, with the ghost data updated by
`callArgsSince`/`traceLastCall`. -/
lemma c1_inv_run {A D : Type} (w : Int) (f : Option D → A → D) :
    ∀ (tr : List (Int × Event A)) (s : FunnelState D) (pend : List A)
      (lastC : Option Int) (t0 : Int),
      C1Inv w f s pend lastC →
      ValidTrace (trailingPolicy w) f s t0 tr = true →
      tr.all (fun x => isPlainEvent x.2) = true →
      C1Inv w f (run (trailingPolicy w) f s tr).1
        (callArgsSince pend tr) (traceLastCall lastC tr) := by
  intro tr
  induction tr with
  | nil => intro s pend lastC t0 hinv _ _; exact hinv
  | cons x rest ih =>
      intro s pend lastC t0 hinv hv hplain
      rcases x with ⟨t, e⟩
      simp only [ValidTrace, Bool.and_eq_true] at hv
      rcases hv with ⟨⟨_, hval⟩, hrest⟩
      rw [List.all_cons, Bool.and_eq_true] at hplain
      rcases hplain with ⟨hpe, hplain⟩
      obtain ⟨hdl, hpd, hmatch⟩ := hinv
      rcases e with a | _ | _ | _ | _
      · -- call
        have hstep : step (trailingPolicy w) f s t (Event.call a) =
            (⟨some (t + w), none, some (f s.preparedData a),
              some (s.burstStartTimestamp.getD t)⟩, []) := by
          simpa [step] using call_trailing_eq w f t a s hdl
        have hinv2 : C1Inv w f
            (⟨some (t + w), none, some (f s.preparedData a),
              some (s.burstStartTimestamp.getD t)⟩ : FunnelState D)
            (pend ++ [a]) (some t) := by
          refine ⟨rfl, ?_, ?_⟩
          · rw [foldCalls_append, hpd]
          · cases pend <;> exact ⟨t, rfl, rfl⟩
        have := ih _ (pend ++ [a]) (some t) t hinv2
          (by rw [hstep] at hrest; exact hrest) hplain
        simpa [run, hstep, callArgsSince, traceLastCall] using this
      · simp [isPlainEvent] at hpe
      · simp [isPlainEvent] at hpe
      · -- fireBurst
        rcases hpend : pend with _ | ⟨b, bs⟩
        · rw [hpend] at hmatch
          rw [show (validEventB s t (Event.fireBurst : Event A)) =
                false by simp [validEventB, hmatch]] at hval
          exact absurd hval (by simp)
        · rw [hpend] at hmatch
          obtain ⟨L, hlc, hbt⟩ := hmatch
          obtain ⟨v, hvv⟩ := foldCalls_cons_some f b bs
          have hstep : step (trailingPolicy w) f s t (Event.fireBurst) =
              ((⟨none, none, none, none⟩ : FunnelState D), [(t, v)]) := by
            simpa [step, trailingPolicy] using
              handleBurstEnd_trailing_eq t s hdl v (by rw [hpd, hpend, hvv])
          have hinv2 : C1Inv w f
              ((⟨none, none, none, none⟩ : FunnelState D)) [] none :=
            ⟨rfl, rfl, rfl⟩
          have := ih _ [] none t hinv2
            (by rw [hstep] at hrest; exact hrest) hplain
          simpa [run, hstep, callArgsSince, traceLastCall] using this
      · -- fireDelay is invalid: the delay timeout is never set
        rw [show (validEventB s t (Event.fireDelay : Event A)) = false by
              simp [validEventB, hdl]] at hval
        exact absurd hval (by simp)

/-- C1: under a pure trailing policy (`invokedAt = "end"`, the default,
`burstCoolDownMs = w`, no `maxBurstDurationMs`), along any valid sequence
of calls and timer firings, every executor invocation happens at least
`w` ms after the last call, and its payload is the left fold by
`reduceArgs` (from `undefined`) of the arguments of all calls made since
the previous execution, in call order. -/
theorem trailing_cooldown_fold {A D : Type} (w : Int) (f : Option D → A → D)
    (t0 t : Int) (e : Event A) (pre : List (Int × Event A))
    (hv : ValidTrace (trailingPolicy w) f FunnelState.initial t0
        (pre ++ [(t, e)]) = true)
    (hplain : (pre ++ [(t, e)]).all (fun x => isPlainEvent x.2) = true)
    (v : D)
    (hexec : (t, v) ∈
      (step (trailingPolicy w) f
        (run (trailingPolicy w) f FunnelState.initial pre).1 t e).2) :
    ∃ L, traceLastCall none pre = some L ∧ L + w ≤ t ∧
      some v = foldCalls f none (callArgsSince [] pre) := by
  obtain ⟨hvpre, hvlast⟩ := validTrace_snoc (trailingPolicy w) f pre _ t0 t e hv
  rw [List.all_append, Bool.and_eq_true] at hplain
  rcases hplain with ⟨hplainPre, hpe⟩
  simp only [List.all_cons, List.all_nil, Bool.and_true] at hpe
  obtain ⟨hdl, hpd, hmatch⟩ :=
    c1_inv_run w f pre FunnelState.initial [] none t0 ⟨rfl, rfl, rfl⟩
      hvpre hplainPre
  rcases e with a | _ | _ | _ | _
  · rw [show (step (trailingPolicy w) f
          (run (trailingPolicy w) f FunnelState.initial pre).1 t
          (Event.call a)).2 = [] by
        simpa [step] using congrArg Prod.snd
          (call_trailing_eq w f t a _ hdl)] at hexec
    exact absurd hexec (by simp)
  · simp [isPlainEvent] at hpe
  · simp [isPlainEvent] at hpe
  · -- fireBurst: the execution step
    rcases hpend : callArgsSince ([] : List A) pre with _ | ⟨b, bs⟩
    · rw [hpend] at hmatch
      rw [show (validEventB
            (run (trailingPolicy w) f FunnelState.initial pre).1 t
            (Event.fireBurst : Event A)) = false by
          simp [validEventB, hmatch]] at hvlast
      exact absurd hvlast (by simp)
    · rw [hpend] at hmatch
      obtain ⟨L, hlc, hbt⟩ := hmatch
      obtain ⟨v0, hvv⟩ := foldCalls_cons_some f b bs
      have hdeadline : L + w ≤ t := by
        rw [show (validEventB
              (run (trailingPolicy w) f FunnelState.initial pre).1 t
              (Event.fireBurst : Event A)) = decide (L + w ≤ t) by
            simp [validEventB, hbt]] at hvlast
        exact of_decide_eq_true hvlast
      rw [show (step (trailingPolicy w) f
            (run (trailingPolicy w) f FunnelState.initial pre).1 t
            (Event.fireBurst : Event A)).2 = [(t, v0)] by
          simpa [step, trailingPolicy] using congrArg Prod.snd
            (handleBurstEnd_trailing_eq t _ hdl v0
              (by rw [hpd, hpend, hvv]))] at hexec
      simp only [List.mem_singleton, Prod.mk.injEq] at hexec
      exact ⟨L, hlc, hdeadline, by rw [hexec.2, hvv]⟩
  · rw [show (validEventB
          (run (trailingPolicy w) f FunnelState.initial pre).1 t
          (Event.fireDelay : Event A)) = false by
        simp [validEventB, hdl]] at hvlast
    exact absurd hvlast (by simp)

/-- C1 witness at a concrete input: calls at 0 and 3 under a 10ms
cooldown, burst firing at 13. -/
theorem trailing_cooldown_fold_witness :
    ∃ L, traceLastCall none debounceWitnessPre = some L ∧ L + 10 ≤ 13 ∧
      some [1, 2] = foldCalls collectArgs none
        (callArgsSince [] debounceWitnessPre) :=
  trailing_cooldown_fold 10 collectArgs 0 13 Event.fireBurst
    debounceWitnessPre (by decide) (by decide) [1, 2] (by decide)

/-- An idle funnel has no delay timeout. -/
lemma isIdle_delay_none {D : Type} (s : FunnelState D)
    (h : isIdle s = true) : s.delayTimeoutId = none := by
  rcases s with ⟨b, dl, pd, bst⟩
  simp [isIdle] at h
  exact h.2

/-- Introduction for `C6Inv` with the delay timeout scheduled at
`te + d`. -/
lemma c6inv_of_delay_some {D : Type} (d : Int) (s : FunnelState D)
    (te tcur : Int) (h : s.delayTimeoutId = some (te + d)) :
    C6Inv d s (some te) tcur := by
  simp only [C6Inv, h]

/-- Introduction for `C6Inv` with the delay deadline already past. -/
lemma c6inv_of_delay_le {D : Type} (d : Int) (s : FunnelState D)
    (te tcur : Int) (h : s.delayTimeoutId = none) (hle : te + d ≤ tcur) :
    C6Inv d s (some te) tcur := by
  simp only [C6Inv, h]
  exact hle

/-- Introduction for `C6Inv` before any execution. -/
lemma c6inv_none {D : Type} (d : Int) (s : FunnelState D) (tcur : Int)
    (h : s.delayTimeoutId = none) : C6Inv d s none tcur := h

/-- Elimination for `C6Inv` before any execution. -/
lemma c6inv_elim_none {D : Type} (d : Int) (s : FunnelState D) (tcur : Int)
    (h : C6Inv d s none tcur) : s.delayTimeoutId = none := h

/-- Elimination for `C6Inv` after an execution at `te`. -/
lemma c6inv_elim_some {D : Type} (d : Int) (s : FunnelState D)
    (te tcur : Int) (h : C6Inv d s (some te) tcur) :
    (s.delayTimeoutId = none ∧ te + d ≤ tcur) ∨
    s.delayTimeoutId = some (te + d) := by
  rcases hdl : s.delayTimeoutId with _ | deadline
  · left
    exact ⟨rfl, by simpa [C6Inv, hdl] using h⟩
  · right
    simp only [C6Inv, hdl] at h
    rw [h]

/-- `C6Inv` is preserved by growing the time bound and keeping the delay
timeout. -/
lemma c6inv_mono {D : Type} (d : Int) (s s1 : FunnelState D)
    (lastE : Option Int) (tcur t1 : Int) (h : C6Inv d s lastE tcur)
    (hle : tcur ≤ t1) (hdl : s1.delayTimeoutId = s.delayTimeoutId) :
    C6Inv d s1 lastE t1 := by
  rcases lastE with _ | te
  · exact c6inv_none d s1 t1 (by rw [hdl]; exact c6inv_elim_none d s tcur h)
  · rcases c6inv_elim_some d s te tcur h with ⟨h1, h2⟩ | h1
    · exact c6inv_of_delay_le d s1 te t1 (by rw [hdl, h1]) (le_trans h2 hle)
    · exact c6inv_of_delay_some d s1 te t1 (by rw [hdl, h1])

/-- A `call` that does not hit the synchronous start edge performs no
execution and leaves the delay timeout unchanged. -/
lemma call_no_invoke_eq {A D : Type} (p : TimingPolicy)
    (f : Option D → A → D) (t : Int) (a : A) (s : FunnelState D)
    (h : ¬(p.invokedAt ≠ InvokedAt.atEnd ∧ isIdle s = true)) :
    (call p f t a s).2 = [] ∧
    (call p f t a s).1.delayTimeoutId = s.delayTimeoutId := by
  rcases p with ⟨ia, bc, mb, dm⟩
  rcases s with ⟨b, dl, pd, bst⟩
  cases ia <;> cases b <;> cases dl <;> cases bc <;>
    simp [call, invoke, armBurst, isIdle] at h ⊢

/-- A `call` that hits the synchronous start edge executes the folded
payload and arms the delay timeout exactly when `delayMs` is defined. -/
lemma call_invoke_eq {A D : Type} (p : TimingPolicy)
    (f : Option D → A → D) (t : Int) (a : A) (s : FunnelState D)
    (h1 : p.invokedAt ≠ InvokedAt.atEnd) (h2 : isIdle s = true) :
    (call p f t a s).2 = [(t, f s.preparedData a)] ∧
    (call p f t a s).1.delayTimeoutId = p.delayMs.map (fun x => t + x) := by
  rcases p with ⟨ia, bc, mb, dm⟩
  rcases s with ⟨b, dl, pd, bst⟩
  simp [isIdle] at h2
  rcases h2 with ⟨hb, hdl⟩
  subst hb hdl
  cases ia <;> simp at h1 <;> cases bc <;> cases dm <;>
    simp [call, invoke, armBurst, isIdle]

/-- `handleBurstEnd` while the delay timeout is active only clears the
burst bookkeeping. -/
lemma handleBurstEnd_delay_active {D : Type} (dm : Option Int) (t : Int)
    (s : FunnelState D) (h : s.delayTimeoutId.isSome = true) :
    handleBurstEnd dm t s =
      ({ s with burstTimeoutId := none, burstStartTimestamp := none }, []) := by
  rcases s with ⟨b, dl, pd, bst⟩
  simp [handleBurstEnd] at h ⊢
  intro hc
  rw [hc] at h
  simp at h

/-- `handleBurstEnd` with nothing pending executes nothing. -/
lemma handleBurstEnd_noexec_eq {D : Type} (dm : Option Int) (t : Int)
    (s : FunnelState D) (hdl : s.delayTimeoutId = none)
    (hpd : s.preparedData = none) :
    handleBurstEnd dm t s =
      ({ s with burstTimeoutId := none, burstStartTimestamp := none }, []) := by
  rcases s with ⟨b, dl, pd, bst⟩
  simp only [FunnelState.delayTimeoutId] at hdl
  simp only [FunnelState.preparedData] at hpd
  subst hdl hpd
  simp [handleBurstEnd, invoke]

/-- `handleBurstEnd` with a pending payload, no delay timeout and
`delayMs = d` executes the payload and arms the delay timeout. -/
lemma handleBurstEnd_exec_eq {D : Type} (d : Int) (t : Int)
    (s : FunnelState D) (hdl : s.delayTimeoutId = none) (v : D)
    (hpd : s.preparedData = some v) :
    handleBurstEnd (some d) t s =
      ((⟨none, some (t + d), none, none⟩ : FunnelState D), [(t, v)]) := by
  rcases s with ⟨b, dl, pd, bst⟩
  simp only [FunnelState.delayTimeoutId] at hdl
  simp only [FunnelState.preparedData] at hpd
  subst hdl hpd
  simp [handleBurstEnd, invoke]

/-- `handleDelayEnd` while the burst timeout is active only clears the
delay timeout. -/
lemma handleDelayEnd_burst_active {D : Type} (dm : Option Int) (t : Int)
    (s : FunnelState D) (h : s.burstTimeoutId.isSome = true) :
    handleDelayEnd dm t s = ({ s with delayTimeoutId := none }, []) := by
  rcases s with ⟨b, dl, pd, bst⟩
  simp [handleDelayEnd] at h ⊢
  intro hc
  rw [hc] at h
  simp at h

/-- `handleDelayEnd` with nothing pending executes nothing. -/
lemma handleDelayEnd_noexec_eq {D : Type} (dm : Option Int) (t : Int)
    (s : FunnelState D) (hb : s.burstTimeoutId = none)
    (hpd : s.preparedData = none) :
    handleDelayEnd dm t s = ({ s with delayTimeoutId := none }, []) := by
  rcases s with ⟨b, dl, pd, bst⟩
  simp only [FunnelState.burstTimeoutId] at hb
  simp only [FunnelState.preparedData] at hpd
  subst hb hpd
  simp [handleDelayEnd, invoke]

/-- `handleDelayEnd` with a pending payload, no burst timeout and
`delayMs = d` executes the payload and re-arms the delay timeout. -/
lemma handleDelayEnd_exec_eq {D : Type} (d : Int) (t : Int)
    (s : FunnelState D) (hb : s.burstTimeoutId = none) (v : D)
    (hpd : s.preparedData = some v) :
    handleDelayEnd (some d) t s =
      ((⟨none, some (t + d), none, s.burstStartTimestamp⟩ : FunnelState D),
       [(t, v)]) := by
  rcases s with ⟨b, dl, pd, bst⟩
  simp only [FunnelState.burstTimeoutId] at hb
  simp only [FunnelState.preparedData] at hpd
  subst hb hpd
  simp [handleDelayEnd, invoke]

/-- One flush/cancel-free valid step under a defined `delayMs` either
executes nothing and preserves `C6Inv`, or performs one execution at the
step's time, at least `d` after the previous one, re-establishing
`C6Inv`. -/
lemma c6_step {A D : Type} (d : Int) (p : TimingPolicy)
    (hp : p.delayMs = some d) (f : Option D → A → D)
    (s : FunnelState D) (lastE : Option Int) (tcur t : Int) (e : Event A)
    (hinv : C6Inv d s lastE tcur) (ht : tcur ≤ t)
    (hval : validEventB s t e = true) (hplain : isPlainEvent e = true) :
    ((step p f s t e).2 = [] ∧ C6Inv d (step p f s t e).1 lastE t) ∨
    (∃ v, (step p f s t e).2 = [(t, v)] ∧
      C6Inv d (step p f s t e).1 (some t) t ∧
      ∀ te, lastE = some te → te + d ≤ t) := by
  rcases e with a | _ | _ | _ | _
  · -- call
    by_cases hc : p.invokedAt ≠ InvokedAt.atEnd ∧ isIdle s = true
    · obtain ⟨hout, hdl2⟩ := call_invoke_eq p f t a s hc.1 hc.2
      rw [hp] at hdl2
      right
      refine ⟨f s.preparedData a, hout, ?_, ?_⟩
      · exact c6inv_of_delay_some d _ t t hdl2
      · intro te hE
        subst hE
        have hdn : s.delayTimeoutId = none := isIdle_delay_none s hc.2
        rcases c6inv_elim_some d s te tcur hinv with ⟨_, h2⟩ | h1
        · exact le_trans h2 ht
        · rw [hdn] at h1
          exact absurd h1 (by simp)
    · obtain ⟨hout, hdl2⟩ := call_no_invoke_eq p f t a s hc
      exact Or.inl ⟨hout, c6inv_mono d s _ lastE tcur t hinv ht hdl2⟩
  · simp [isPlainEvent] at hplain
  · simp [isPlainEvent] at hplain
  · -- fireBurst
    rcases hb : s.burstTimeoutId with _ | bt
    · rw [show (validEventB s t (Event.fireBurst : Event A)) = false by
          simp [validEventB, hb]] at hval
      exact absurd hval (by simp)
    · rcases hdl : s.delayTimeoutId with _ | dl0
      · rcases hpd : s.preparedData with _ | v
        · have hstep : step p f s t (Event.fireBurst : Event A) =
              ({ s with burstTimeoutId := none,
                        burstStartTimestamp := none }, []) :=
            handleBurstEnd_noexec_eq p.delayMs t s hdl hpd
          rw [hstep]
          exact Or.inl ⟨rfl, c6inv_mono d s _ lastE tcur t hinv ht rfl⟩
        · have hstep : step p f s t (Event.fireBurst : Event A) =
              ((⟨none, some (t + d), none, none⟩ : FunnelState D),
               [(t, v)]) := by
            show handleBurstEnd p.delayMs t s = _
            rw [hp]
            exact handleBurstEnd_exec_eq d t s hdl v hpd
          rw [hstep]
          right
          refine ⟨v, rfl, c6inv_of_delay_some d _ t t rfl, ?_⟩
          intro te hE
          subst hE
          rcases c6inv_elim_some d s te tcur hinv with ⟨_, h2⟩ | h1
          · exact le_trans h2 ht
          · rw [hdl] at h1
            exact absurd h1 (by simp)
      · have hstep : step p f s t (Event.fireBurst : Event A) =
            ({ s with burstTimeoutId := none,
                      burstStartTimestamp := none }, []) :=
          handleBurstEnd_delay_active p.delayMs t s (by rw [hdl]; rfl)
        rw [hstep]
        exact Or.inl ⟨rfl, c6inv_mono d s _ lastE tcur t hinv ht rfl⟩
  · -- fireDelay
    rcases hdl : s.delayTimeoutId with _ | deadline
    · rw [show (validEventB s t (Event.fireDelay : Event A)) = false by
          simp [validEventB, hdl]] at hval
      exact absurd hval (by simp)
    · have hdt : deadline ≤ t := by
        rw [show (validEventB s t (Event.fireDelay : Event A)) =
              decide (deadline ≤ t) by simp [validEventB, hdl]] at hval
        exact of_decide_eq_true hval
      rcases lastE with _ | te
      · rw [c6inv_elim_none d s tcur hinv] at hdl
        exact absurd hdl (by simp)
      · have hte : deadline = te + d := by
          rcases c6inv_elim_some d s te tcur hinv with ⟨h1, _⟩ | h1
          · rw [h1] at hdl
            exact absurd hdl (by simp)
          · rw [h1] at hdl
            exact (Option.some_inj.mp hdl).symm
        have hgap : te + d ≤ t := hte ▸ hdt
        rcases hb : s.burstTimeoutId with _ | bt
        · rcases hpd : s.preparedData with _ | v
          · have hstep : step p f s t (Event.fireDelay : Event A) =
                ({ s with delayTimeoutId := none }, []) :=
              handleDelayEnd_noexec_eq p.delayMs t s hb hpd
            rw [hstep]
            exact Or.inl ⟨rfl, c6inv_of_delay_le d _ te t rfl hgap⟩
          · have hstep : step p f s t (Event.fireDelay : Event A) =
                ((⟨none, some (t + d), none, s.burstStartTimestamp⟩ :
                    FunnelState D), [(t, v)]) := by
              show handleDelayEnd p.delayMs t s = _
              rw [hp]
              exact handleDelayEnd_exec_eq d t s hb v hpd
            rw [hstep]
            exact Or.inr ⟨v, rfl, c6inv_of_delay_some d _ t t rfl,
              fun te2 hE => by
                rw [Option.some_inj.mp hE] at hgap
                exact hgap⟩
        · have hstep : step p f s t (Event.fireDelay : Event A) =
              ({ s with delayTimeoutId := none }, []) :=
            handleDelayEnd_burst_active p.delayMs t s (by rw [hb]; rfl)
          rw [hstep]
          exact Or.inl ⟨rfl, c6inv_of_delay_le d _ te t rfl hgap⟩

/-- Along a flush/cancel-free valid trace with `delayMs = d`, executions
are spaced at least `d` apart (and at least `d` after the execution
recorded in `lastE`). -/
lemma c6_run {A D : Type} (d : Int) (p : TimingPolicy)
    (hp : p.delayMs = some d) (f : Option D → A → D) :
    ∀ (tr : List (Int × Event A)) (s : FunnelState D) (lastE : Option Int)
      (t0 : Int),
      C6Inv d s lastE t0 →
      ValidTrace p f s t0 tr = true →
      tr.all (fun x => isPlainEvent x.2) = true →
      List.Chain' (fun x y => x.1 + d ≤ y.1) (run p f s tr).2 ∧
      (∀ te o, lastE = some te → (run p f s tr).2.head? = some o →
        te + d ≤ o.1) := by
  intro tr
  induction tr with
  | nil =>
      intro s lastE t0 _ _ _
      refine ⟨List.chain'_nil, ?_⟩
      intro te o _ ho
      simp [run] at ho
  | cons x rest ih =>
      intro s lastE t0 hinv hv hplain
      rcases x with ⟨t, e⟩
      simp only [ValidTrace, Bool.and_eq_true] at hv
      rcases hv with ⟨⟨ht0, hval⟩, hrest⟩
      rw [List.all_cons, Bool.and_eq_true] at hplain
      rcases hplain with ⟨hpe, hplain⟩
      rcases c6_step d p hp f s lastE t0 t e hinv (of_decide_eq_true ht0)
          hval hpe with ⟨hout, hinv2⟩ | ⟨v, hout, hinv2, hgap⟩
      · have := ih _ lastE t hinv2 hrest hplain
        constructor
        · show List.Chain' _ ((step p f s t e).2 ++ _)
          rw [hout, List.nil_append]
          exact this.1
        · intro te o hE ho
          refine this.2 te o hE ?_
          rw [show (run p f s ((t, e) :: rest)).2 =
                (step p f s t e).2 ++ (run p f (step p f s t e).1 rest).2
              from rfl, hout, List.nil_append] at ho
          exact ho
      · obtain ⟨hchain, hhead⟩ := ih _ (some t) t hinv2 hrest hplain
        have hruncons : (run p f s ((t, e) :: rest)).2 =
            (t, v) :: (run p f (step p f s t e).1 rest).2 := by
          rw [show (run p f s ((t, e) :: rest)).2 =
                (step p f s t e).2 ++ (run p f (step p f s t e).1 rest).2
              from rfl, hout, List.singleton_append]
        constructor
        · rw [hruncons, List.chain'_cons']
          refine ⟨?_, hchain⟩
          intro y hy
          exact hhead t y rfl (by
            rcases hh : (run p f (step p f s t e).1 rest).2.head? with _ | z
            · rw [hh] at hy
              exact absurd hy (by simp)
            · rw [hh] at hy
              simp at hy
              rw [hy])
        · intro te o hE ho
          rw [hruncons] at ho
          simp only [List.head?_cons, Option.some_inj] at ho
          rw [← ho]
          exact hgap te hE

/-- C6 (amended): when `delayMs = d` is defined, along every valid
sequence of calls and timer firings (timers may fire late but never early;
no `flush`/`cancel`), no two consecutive executor invocations occur closer
together than `d` ms. -/
theorem delay_min_gap {A D : Type} (d : Int) (p : TimingPolicy)
    (hp : p.delayMs = some d) (f : Option D → A → D) (t0 : Int)
    (tr : List (Int × Event A))
    (hv : ValidTrace p f FunnelState.initial t0 tr = true)
    (hplain : tr.all (fun x => isPlainEvent x.2) = true) :
    List.Chain' (fun x y => x.1 + d ≤ y.1)
      (run p f FunnelState.initial tr).2 :=
  (c6_run d p hp f tr FunnelState.initial none t0 rfl hv hplain).1

/-- C6 witness at a concrete input: two full cycles under a 10ms cooldown
and 100ms delay. -/
theorem delay_min_gap_witness :
    List.Chain' (fun x y => x.1 + (100 : Int) ≤ y.1)
      (run throttledPolicy collectArgs FunnelState.initial
        throttleWitnessTrace).2 :=
  delay_min_gap 100 throttledPolicy rfl collectArgs 0 throttleWitnessTrace
    (by decide) (by decide)

/-- C6 counterexample to the claim as stated (which also allows `flush`
events): with `delayMs = 100`, a valid trace containing a `flush` yields
two executions only 2ms apart. -/
theorem delay_min_gap_counterexample :
    throttledPolicy.delayMs = some 100 ∧
    ValidTrace throttledPolicy collectArgs FunnelState.initial 0
      flushGapTrace = true ∧
    ¬ List.Chain' (fun x y => x.1 + (100 : Int) ≤ y.1)
      (run throttledPolicy collectArgs FunnelState.initial flushGapTrace).2 := by
  refine ⟨rfl, by decide, ?_⟩
  rw [show (run throttledPolicy collectArgs FunnelState.initial
        flushGapTrace).2 = [(10, [1]), (12, [2])] by decide]
  simp [List.chain'_cons]

end Funnel
